import Mathlib

/-!
# Verification of the `ext-string` string-utility library

The library (`src/lib.rs`) extends a string type with: grapheme-based
reversal, left/right padding by a single fill character, left/right padding
by a cycling fill pattern, the predicates `is_numeric` / `is_alphabetic` /
`is_alphanumeric`, and `swap_case`.

Model: a text value is a `List Char`, the sequence of its Unicode scalar
values (Rust `self.chars()`).  All functions below are direct translations
of the Rust source.  The per-scalar Unicode data the source obtains from
the Rust standard library (`char::is_numeric`, `char::is_alphabetic`,
`char::is_lowercase`, `char::to_uppercase`, ...) and from the external
`unicode-segmentation` crate (grapheme clusters) is not part of the
repository; it is encoded here by explicit functions faithful to the
Unicode Character Database on every scalar range this development uses.
-/

namespace ExtString

/-- Unicode numeric classification (Rust `char::is_numeric`, general
categories Nd/Nl/No), encoded for the scalar ranges used here: the ASCII
digits `0`-`9` and the Arabic-Indic digits U+0660-U+0669.  Letters,
punctuation (in particular `-` U+002D), Hebrew and CJK scalars are not
numeric. -/
def charIsNumeric (c : Char) : Bool :=
  (0x30 ≤ c.toNat && c.toNat ≤ 0x39) || (0x660 ≤ c.toNat && c.toNat ≤ 0x669)

/-- Unicode alphabetic classification (Rust `char::is_alphabetic`),
encoded for the scalar ranges used here: ASCII letters, Latin-1 letters
`ß` (U+00DF) and the `à`-`ÿ` block, Greek letters U+0391-U+03C9, Hebrew
letters U+05D0-U+05EA, Devanagari letters U+0904-U+0939, and the CJK
unified ideographs U+4E00-U+9FFF.  Digits and punctuation are not
alphabetic. -/
def charIsAlphabetic (c : Char) : Bool :=
  (0x41 ≤ c.toNat && c.toNat ≤ 0x5A) || (0x61 ≤ c.toNat && c.toNat ≤ 0x7A) ||
  (0xC0 ≤ c.toNat && c.toNat ≤ 0xFF && c.toNat ≠ 0xD7 && c.toNat ≠ 0xF7) ||
  (0x391 ≤ c.toNat && c.toNat ≤ 0x3C9) ||
  (0x5D0 ≤ c.toNat && c.toNat ≤ 0x5EA) ||
  (0x904 ≤ c.toNat && c.toNat ≤ 0x939) ||
  (0x4E00 ≤ c.toNat && c.toNat ≤ 0x9FFF)

/-- Rust `char::is_alphanumeric`, which is defined in the standard library
as `is_alphabetic || is_numeric`. -/
def charIsAlphanumeric (c : Char) : Bool :=
  charIsAlphabetic c || charIsNumeric c

/-- Unicode `Lowercase` property (Rust `char::is_lowercase`), encoded for
the scalar ranges used here: ASCII `a`-`z`, `ß` (U+00DF), Latin-1
lowercase U+00E0-U+00FF (without `÷`), and Greek lowercase U+03B1-U+03C9
(including final sigma `ς` U+03C2 and sigma `σ` U+03C3).  Hebrew,
Devanagari and CJK scalars are caseless. -/
def charIsLowercase (c : Char) : Bool :=
  (0x61 ≤ c.toNat && c.toNat ≤ 0x7A) || c.toNat == 0xDF ||
  (0xE0 ≤ c.toNat && c.toNat ≤ 0xFF && c.toNat ≠ 0xF7) ||
  (0x3B1 ≤ c.toNat && c.toNat ≤ 0x3C9)

/-- Unicode `Uppercase` property (Rust `char::is_uppercase`), encoded for
the scalar ranges used here: ASCII `A`-`Z`, Latin-1 uppercase
U+00C0-U+00DE (without `×`), and Greek uppercase U+0391-U+03A9 (including
capital sigma `Σ` U+03A3). -/
def charIsUppercase (c : Char) : Bool :=
  (0x41 ≤ c.toNat && c.toNat ≤ 0x5A) ||
  (0xC0 ≤ c.toNat && c.toNat ≤ 0xDE && c.toNat ≠ 0xD7) ||
  (0x391 ≤ c.toNat && c.toNat ≤ 0x3A9)

/-- Full Unicode uppercase mapping (Rust `char::to_uppercase`), which may
expand one scalar to several, encoded for the scalars used here: ASCII and
Latin-1/Greek one-to-one mappings, and the one-to-many mapping
`ß` → `SS`.  Both `σ` and final `ς` uppercase to `Σ`.  A scalar with no
mapping maps to itself. -/
def charToUppercase (c : Char) : List Char :=
  if 0x61 ≤ c.toNat && c.toNat ≤ 0x7A then [Char.ofNat (c.toNat - 0x20)]
  else if c.toNat == 0xDF then ['S', 'S']
  else if 0xE0 ≤ c.toNat && c.toNat ≤ 0xFE && c.toNat ≠ 0xF7 then
    [Char.ofNat (c.toNat - 0x20)]
  else if c.toNat == 0x3C2 then ['Σ']
  else if 0x3B1 ≤ c.toNat && c.toNat ≤ 0x3C9 && c.toNat ≠ 0x3C2 then
    [Char.ofNat (c.toNat - 0x20)]
  else [c]

/-- Full Unicode lowercase mapping (Rust `char::to_lowercase`), encoded
for the scalars used here.  Capital sigma `Σ` lowercases to `σ` (never to
the final form `ς`).  A scalar with no mapping maps to itself. -/
def charToLowercase (c : Char) : List Char :=
  if 0x41 ≤ c.toNat && c.toNat ≤ 0x5A then [Char.ofNat (c.toNat + 0x20)]
  else if 0xC0 ≤ c.toNat && c.toNat ≤ 0xDE && c.toNat ≠ 0xD7 then
    [Char.ofNat (c.toNat + 0x20)]
  else if 0x391 ≤ c.toNat && c.toNat ≤ 0x3A9 then [Char.ofNat (c.toNat + 0x20)]
  else [c]

/-- Grapheme-cluster `Extend` classification of UAX #29 (general category
Mn and similar), encoded for the scalar ranges used here: the combining
diacritical marks U+0300-U+036F and the Devanagari non-spacing vowel signs
and virama U+0941-U+0948 / U+094D. -/
def isExtend (c : Char) : Bool :=
  (0x300 ≤ c.toNat && c.toNat ≤ 0x36F) ||
  (0x941 ≤ c.toNat && c.toNat ≤ 0x948) || c.toNat == 0x94D

/-- Extended grapheme cluster segmentation, as performed by the external
`unicode-segmentation` crate (UAX #29) on the scalars used here: a break
occurs before every scalar that is not `Extend`-class, so each cluster is
one scalar followed by the maximal run of `Extend` scalars (a leading
`Extend` scalar starts a degenerate cluster of its own). -/
def graphemes : List Char → List (List Char)
  | [] => []
  | c :: rest =>
    match graphemes rest with
    | [] => [[c]]
    | g :: gs =>
      match g with
      | [] => [c] :: g :: gs
      | h :: _ => if isExtend h then (c :: g) :: gs else [c] :: g :: gs

/-- `ExtString::reverse`: collect the grapheme clusters, reverse their
order, and concatenate. -/
def reverse (t : List Char) : List Char :=
  ((graphemes t).reverse).flatten

/-- `ExtString::pad_left`: if `pad_len` is at most the scalar count the
string is returned unchanged; otherwise `pad_len - count` copies of the
fill character are pushed, then the string. -/
def pad_left (t : List Char) (pad_len : Nat) (c : Char) : List Char :=
  let count := t.length
  if pad_len ≤ count then t
  else List.replicate (pad_len - count) c ++ t

/-- `ExtString::pad_right`: the string, then `pad_len - count` copies of
the fill character. -/
def pad_right (t : List Char) (pad_len : Nat) (c : Char) : List Char :=
  let count := t.length
  if pad_len ≤ count then t
  else t ++ List.replicate (pad_len - count) c

/-- The fill-run loop of `pad_left_str` / `pad_right_str`: for each
`index` in the given list, push `s.chars().nth(index % repeat_len)`,
unwrapping the `Option`.  A failed unwrap (which in Rust is a panic, as is
the `index % 0` it would stem from) is `none`. -/
def fillIndices (s : List Char) : List Nat → Option (List Char)
  | [] => some []
  | index :: rest =>
    match s.get? (index % s.length), fillIndices s rest with
    | some c, some cs => some (c :: cs)
    | _, _ => none

/-- `ExtString::pad_left_str`: unchanged when `pad_len <= count` or the
fill pattern is empty; otherwise the cycled fill run, then the string.
`none` models a runtime panic. -/
def pad_left_str (t : List Char) (pad_len : Nat) (s : List Char) :
    Option (List Char) :=
  let count := t.length
  if pad_len ≤ count || s.isEmpty then some t
  else
    match fillIndices s (List.range (pad_len - count)) with
    | some pad => some (pad ++ t)
    | none => none

/-- `ExtString::pad_right_str`: unchanged when `pad_len <= count` or the
fill pattern is empty; otherwise the string, then the cycled fill run. -/
def pad_right_str (t : List Char) (pad_len : Nat) (s : List Char) :
    Option (List Char) :=
  let count := t.length
  if pad_len ≤ count || s.isEmpty then some t
  else
    match fillIndices s (List.range (pad_len - count)) with
    | some pad => some (t ++ pad)
    | none => none

/-- `ExtString::is_numeric`: non-empty and every scalar numeric. -/
def is_numeric (t : List Char) : Bool :=
  (!t.isEmpty) && t.all charIsNumeric

/-- `ExtString::is_alphabetic`: non-empty and every scalar alphabetic. -/
def is_alphabetic (t : List Char) : Bool :=
  (!t.isEmpty) && t.all charIsAlphabetic

/-- `ExtString::is_alphanumeric`: non-empty and every scalar
alphanumeric. -/
def is_alphanumeric (t : List Char) : Bool :=
  (!t.isEmpty) && t.all charIsAlphanumeric

/-- `ExtString::swap_case`: a single left-to-right pass pushing, for each
scalar, its uppercase mapping when it is lowercase, its lowercase mapping
when it is uppercase, and the scalar itself otherwise. -/
def swap_case (t : List Char) : List Char :=
  t.foldl
    (fun s c =>
      if charIsLowercase c then s ++ charToUppercase c
      else if charIsUppercase c then s ++ charToLowercase c
      else s ++ [c])
    []

/-- The per-scalar case-swapping step of `swap_case`, as a function: the
uppercase mapping of a lowercase scalar, the lowercase mapping of an
uppercase scalar, and the scalar itself otherwise. -/
def swapScalar (c : Char) : List Char :=
  if charIsLowercase c then charToUppercase c
  else if charIsUppercase c then charToLowercase c
  else [c]

/-- A scalar whose case mapping round-trips: if it is lowercase, its
uppercase mapping is a single uppercase non-lowercase scalar whose
lowercase mapping is the original scalar, and symmetrically if it is
uppercase; caseless scalars qualify trivially. -/
def swapRoundTrips (c : Char) : Bool :=
  if charIsLowercase c then
    match charToUppercase c with
    | [u] => charIsUppercase u && !charIsLowercase u &&
        decide (charToLowercase u = [c])
    | _ => false
  else if charIsUppercase c then
    match charToLowercase c with
    | [l] => charIsLowercase l && !charIsUppercase l &&
        decide (charToUppercase l = [c])
    | _ => false
  else true

/-- A well-formed grapheme cluster: a non-`Extend` base scalar followed by
`Extend`-class scalars only. -/
def isCluster : List Char → Bool
  | [] => false
  | h :: tl => !isExtend h && tl.all isExtend

end ExtString

namespace ExtString

/-! ## Helper lemmas -/

theorem fillIndices_eq_map (s : List Char) (hs : s ≠ []) (l : List Nat) :
    fillIndices s l = some (l.map fun i => s.getD (i % s.length) 'a') := by
  induction l with
  | nil => rfl
  | cons i rest ih =>
    have hlt : i % s.length < s.length := Nat.mod_lt _ (List.length_pos.mpr hs)
    simp only [fillIndices, ih, List.map_cons]
    rw [List.get?_eq_get hlt]
    simp [List.getD_eq_get?, List.getElem?_eq_getElem hlt]

theorem pad_left_str_eq (t : List Char) (pad_len : Nat) (s : List Char)
    (hlen : t.length < pad_len) (hs : s ≠ []) :
    pad_left_str t pad_len s =
      some ((List.range (pad_len - t.length)).map
        (fun i => s.getD (i % s.length) 'a') ++ t) := by
  simp only [pad_left_str]
  rw [if_neg (by simp [Nat.not_le.mpr hlen, hs]), fillIndices_eq_map s hs]

theorem pad_right_str_eq (t : List Char) (pad_len : Nat) (s : List Char)
    (hlen : t.length < pad_len) (hs : s ≠ []) :
    pad_right_str t pad_len s =
      some (t ++ (List.range (pad_len - t.length)).map
        (fun i => s.getD (i % s.length) 'a')) := by
  simp only [pad_right_str]
  rw [if_neg (by simp [Nat.not_le.mpr hlen, hs]), fillIndices_eq_map s hs]

theorem takeWhile_append_of_all {α : Type} {p : α → Bool} {xs ys : List α}
    (h : ∀ a ∈ xs, p a = true) :
    (xs ++ ys).takeWhile p = xs ++ ys.takeWhile p := by
  induction xs with
  | nil => simp
  | cons a l ih =>
    simp [List.takeWhile_cons, h a (List.mem_cons_self a l),
      ih fun b hb => h b (List.mem_cons_of_mem a hb)]

theorem dropWhile_append_of_all {α : Type} {p : α → Bool} {xs ys : List α}
    (h : ∀ a ∈ xs, p a = true) :
    (xs ++ ys).dropWhile p = ys.dropWhile p := by
  induction xs with
  | nil => simp
  | cons a l ih =>
    simp [List.dropWhile_cons, h a (List.mem_cons_self a l),
      ih fun b hb => h b (List.mem_cons_of_mem a hb)]

theorem length_dropWhile_le {α : Type} (p : α → Bool) (l : List α) :
    (l.dropWhile p).length ≤ l.length := by
  induction l with
  | nil => simp
  | cons a l ih =>
    by_cases hp : p a <;> simp [List.dropWhile_cons, hp]
    exact Nat.le_succ_of_le ih

theorem head?_dropWhile {α : Type} {p : α → Bool} {l : List α} {a : α}
    (h : (l.dropWhile p).head? = some a) : p a = false := by
  induction l with
  | nil => simp at h
  | cons b l ih =>
    by_cases hp : p b
    · rw [List.dropWhile_cons, if_pos hp] at h
      exact ih h
    · rw [List.dropWhile_cons, if_neg hp] at h
      simp at h
      rw [← h]
      exact Bool.eq_false_iff.mpr hp

theorem flatten_graphemes (t : List Char) : (graphemes t).flatten = t := by
  induction t with
  | nil => rfl
  | cons c rest ih =>
    have hstep : (graphemes (c :: rest)).flatten =
        c :: (graphemes rest).flatten := by
      cases hg : graphemes rest with
      | nil => simp [graphemes, hg]
      | cons g gs =>
        cases g with
        | nil => simp [graphemes, hg]
        | cons h tl => by_cases hx : isExtend h <;> simp [graphemes, hg, hx]
    rw [hstep, ih]

theorem graphemes_cons (c : Char) (rest : List Char) :
    graphemes (c :: rest) =
      (c :: rest.takeWhile isExtend) :: graphemes (rest.dropWhile isExtend) := by
  induction rest generalizing c with
  | nil => rfl
  | cons h r ih =>
    conv_lhs => rw [graphemes, ih h]
    by_cases hx : isExtend h <;>
      simp [hx, List.takeWhile_cons, List.dropWhile_cons, ih]

theorem all_isCluster_graphemes :
    ∀ (n : Nat) (t : List Char), t.length ≤ n →
      (∀ c, t.head? = some c → isExtend c = false) →
      ∀ g ∈ graphemes t, isCluster g = true := by
  intro n
  induction n with
  | zero =>
    intro t ht _ g hg
    rw [List.length_eq_zero.mp (Nat.le_zero.mp ht)] at hg
    simp [graphemes] at hg
  | succ n ih =>
    intro t ht hh g hg
    cases t with
    | nil => simp [graphemes] at hg
    | cons c rest =>
      rw [graphemes_cons] at hg
      rcases List.mem_cons.mp hg with rfl | hg'
      · simp only [isCluster, Bool.and_eq_true, Bool.not_eq_true',
          List.all_eq_true]
        exact ⟨hh c rfl, fun a ha => List.mem_takeWhile_imp ha⟩
      · refine ih (rest.dropWhile isExtend) ?_ ?_ g hg'
        · calc (rest.dropWhile isExtend).length
              ≤ rest.length := length_dropWhile_le _ _
            _ ≤ n := Nat.le_of_succ_le_succ ht
        · intro c' hc'
          exact head?_dropWhile hc'

theorem flatten_not_extend_head (gs : List (List Char))
    (h : ∀ g ∈ gs, isCluster g = true) :
    (gs.flatten).takeWhile isExtend = [] ∧
    (gs.flatten).dropWhile isExtend = gs.flatten := by
  cases gs with
  | nil => simp
  | cons g rest =>
    cases g with
    | nil =>
      have := h [] (List.mem_cons_self [] rest)
      simp [isCluster] at this
    | cons b tl =>
      have hb : isExtend b = false := by
        have := h (b :: tl) (List.mem_cons_self _ rest)
        simp only [isCluster, Bool.and_eq_true, Bool.not_eq_true'] at this
        exact this.1
      constructor <;>
        simp [List.flatten_cons, List.takeWhile_cons, List.dropWhile_cons, hb]

theorem graphemes_flatten_clusters (gs : List (List Char))
    (h : ∀ g ∈ gs, isCluster g = true) :
    graphemes gs.flatten = gs := by
  induction gs with
  | nil => rfl
  | cons g rest ih =>
    have hg := h g (List.mem_cons_self g rest)
    have hrest : ∀ g' ∈ rest, isCluster g' = true :=
      fun g' hg' => h g' (List.mem_cons_of_mem g hg')
    cases g with
    | nil => simp [isCluster] at hg
    | cons b tl =>
      simp only [isCluster, Bool.and_eq_true, Bool.not_eq_true',
        List.all_eq_true] at hg
      obtain ⟨hb, htl⟩ := hg
      simp only [List.flatten_cons, List.cons_append]
      rw [graphemes_cons, takeWhile_append_of_all htl,
        dropWhile_append_of_all htl,
        (flatten_not_extend_head rest hrest).1,
        (flatten_not_extend_head rest hrest).2, ih hrest]
      simp

theorem foldl_swap_aux (t : List Char) (acc : List Char) :
    t.foldl (fun s c =>
      if charIsLowercase c then s ++ charToUppercase c
      else if charIsUppercase c then s ++ charToLowercase c
      else s ++ [c]) acc = acc ++ (t.map swapScalar).flatten := by
  induction t generalizing acc with
  | nil => simp
  | cons c rest ih =>
    rw [List.foldl_cons, ih]
    have hb : (if charIsLowercase c then acc ++ charToUppercase c
        else if charIsUppercase c then acc ++ charToLowercase c
        else acc ++ [c]) = acc ++ swapScalar c := by
      by_cases h1 : charIsLowercase c <;> by_cases h2 : charIsUppercase c <;>
        simp [swapScalar, h1, h2]
    rw [hb]
    simp [List.append_assoc]

theorem swap_case_eq_flatten (t : List Char) :
    swap_case t = (t.map swapScalar).flatten := by
  simpa [swap_case] using foldl_swap_aux t []

theorem swap_case_append (xs ys : List Char) :
    swap_case (xs ++ ys) = swap_case xs ++ swap_case ys := by
  simp [swap_case_eq_flatten]

theorem swap_case_swapScalar (c : Char) (h : swapRoundTrips c = true) :
    swap_case (swapScalar c) = [c] := by
  unfold swapRoundTrips at h
  by_cases h1 : charIsLowercase c
  · rw [if_pos h1] at h
    cases hu : charToUppercase c with
    | nil => rw [hu] at h; simp at h
    | cons u us =>
      cases us with
      | nil =>
        rw [hu] at h
        simp only [Bool.and_eq_true, Bool.not_eq_true',
          decide_eq_true_eq] at h
        obtain ⟨⟨hu1, hu2⟩, hu3⟩ := h
        rw [swap_case_eq_flatten]
        simp [swapScalar, h1, hu, hu1, hu2, hu3]
      | cons v vs => rw [hu] at h; simp at h
  · by_cases h2 : charIsUppercase c
    · rw [if_neg h1, if_pos h2] at h
      cases hl : charToLowercase c with
      | nil => rw [hl] at h; simp at h
      | cons l ls =>
        cases ls with
        | nil =>
          rw [hl] at h
          simp only [Bool.and_eq_true, Bool.not_eq_true',
            decide_eq_true_eq] at h
          obtain ⟨⟨hl1, hl2⟩, hl3⟩ := h
          rw [swap_case_eq_flatten]
          simp [swapScalar, h1, h2, hl, hl1, hl2, hl3]
        | cons v vs => rw [hl] at h; simp at h
    · rw [swap_case_eq_flatten]
      simp [swapScalar, h1, h2]

/-! ## Claim theorems -/

/-- C1: `is_numeric`, `is_alphabetic` and `is_alphanumeric` each return
true iff the text is non-empty and every scalar satisfies the respective
Unicode per-scalar classification; all three are false on the empty
string, `is_alphabetic "abcאבג"` is true and `is_numeric "-123v56"` is
false. -/
theorem predicates_nonempty_all_spec :
    (∀ t : List Char,
      (is_numeric t = true ↔ t ≠ [] ∧ ∀ c ∈ t, charIsNumeric c = true) ∧
      (is_alphabetic t = true ↔ t ≠ [] ∧ ∀ c ∈ t, charIsAlphabetic c = true) ∧
      (is_alphanumeric t = true ↔ t ≠ [] ∧ ∀ c ∈ t, charIsAlphanumeric c = true)) ∧
    is_numeric [] = false ∧ is_alphabetic [] = false ∧
    is_alphanumeric [] = false ∧
    is_alphabetic "abcאבג".data = true ∧ is_numeric "-123v56".data = false := by
  refine ⟨fun t => ⟨?_, ?_, ?_⟩, by decide, by decide, by decide,
    by decide, by decide⟩ <;>
    simp [is_numeric, is_alphabetic, is_alphanumeric, List.isEmpty_iff,
      List.all_eq_true]

/-- C2: with an empty fill pattern, `pad_left_str` and `pad_right_str`
return the text unchanged for every target length and never reach the
modulo computation, so no arithmetic fault (`none`) can occur. -/
theorem pad_str_empty_pattern_noop (t : List Char) (pad_len : Nat) :
    pad_left_str t pad_len [] = some t ∧ pad_right_str t pad_len [] = some t := by
  constructor <;> simp [pad_left_str, pad_right_str]

/-- C7: when the target length is at most the scalar count, all four
padding functions return the text unchanged, for every fill character and
every fill pattern. -/
theorem pad_noop_of_le (t : List Char) (pad_len : Nat) (c : Char)
    (s : List Char) (h : pad_len ≤ t.length) :
    pad_left t pad_len c = t ∧ pad_right t pad_len c = t ∧
    pad_left_str t pad_len s = some t ∧ pad_right_str t pad_len s = some t := by
  refine ⟨?_, ?_, ?_, ?_⟩ <;>
    simp [pad_left, pad_right, pad_left_str, pad_right_str, h]

/-- Witness for C7 at `T = "12345"`, `pad_len = 3`. -/
theorem pad_noop_witness :
    3 ≤ "12345".data.length ∧
    (pad_left "12345".data 3 ' ' = "12345".data ∧
     pad_right "12345".data 3 ' ' = "12345".data ∧
     pad_left_str "12345".data 3 "qwerty".data = some "12345".data ∧
     pad_right_str "12345".data 3 "qwerty".data = some "12345".data) :=
  ⟨by decide, pad_noop_of_le "12345".data 3 ' ' "qwerty".data (by decide)⟩

/-- C10: padding with a single-scalar fill pattern agrees exactly with
padding by that fill character. -/
theorem pad_str_singleton_agrees_pad (t : List Char) (pad_len : Nat) (c : Char) :
    pad_left_str t pad_len [c] = some (pad_left t pad_len c) ∧
    pad_right_str t pad_len [c] = some (pad_right t pad_len c) := by
  by_cases h : pad_len ≤ t.length
  · simp [pad_left, pad_right, pad_left_str, pad_right_str, h]
  · have h1 : t.length < pad_len := Nat.lt_of_not_le h
    have hmap : (List.range (pad_len - t.length)).map
        (fun i => List.getD [c] (i % [c].length) 'a') =
        List.replicate (pad_len - t.length) c := by
      simp [Nat.mod_one, List.map_const']
    rw [pad_left_str_eq t pad_len [c] h1 (by simp),
      pad_right_str_eq t pad_len [c] h1 (by simp), hmap]
    simp [pad_left, pad_right, h]

/-- C6: for every fill character and every non-empty fill pattern, the
scalar count of the result of all four padding functions is
`max pad_len (scalar count of T)`. -/
theorem pad_length_law (t : List Char) (pad_len : Nat) (c : Char)
    (s : List Char) (hs : s ≠ []) :
    (pad_left t pad_len c).length = max pad_len t.length ∧
    (pad_right t pad_len c).length = max pad_len t.length ∧
    (∃ r, pad_left_str t pad_len s = some r ∧
      r.length = max pad_len t.length) ∧
    (∃ r, pad_right_str t pad_len s = some r ∧
      r.length = max pad_len t.length) := by
  by_cases h : pad_len ≤ t.length
  · refine ⟨?_, ?_, ⟨t, ?_, ?_⟩, ⟨t, ?_, ?_⟩⟩ <;>
      simp [pad_left, pad_right, pad_left_str, pad_right_str, h,
        Nat.max_eq_right h]
  · have h1 : t.length < pad_len := Nat.lt_of_not_le h
    refine ⟨?_, ?_,
      ⟨_, pad_left_str_eq t pad_len s h1 hs, ?_⟩,
      ⟨_, pad_right_str_eq t pad_len s h1 hs, ?_⟩⟩ <;>
      · simp [pad_left, pad_right, h]
        omega

/-- Witness for C6 at `T = "ab"`, `pad_len = 5`, `c = 'x'`, `S = "yz"`. -/
theorem pad_length_law_witness :
    "yz".data ≠ [] ∧
    ((pad_left "ab".data 5 'x').length = max 5 "ab".data.length ∧
     (pad_right "ab".data 5 'x').length = max 5 "ab".data.length ∧
     (∃ r, pad_left_str "ab".data 5 "yz".data = some r ∧
       r.length = max 5 "ab".data.length) ∧
     (∃ r, pad_right_str "ab".data 5 "yz".data = some r ∧
       r.length = max 5 "ab".data.length)) :=
  ⟨by decide, pad_length_law "ab".data 5 'x' "yz".data (by decide)⟩

/-- C5: when the target length exceeds the scalar count and the fill
pattern is non-empty, both string-pattern padders succeed and the fill run
has exactly `pad_len - n` scalars, the `i`-th being `S[i mod |S|]`; in
particular `pad_left_str "12345" 14 "qwerty" = "qwertyqwe12345"`. -/
theorem pad_str_fill_cycling :
    (∀ (t : List Char) (pad_len : Nat) (s : List Char),
      t.length < pad_len → s ≠ [] →
      ∃ fill, pad_left_str t pad_len s = some (fill ++ t) ∧
        pad_right_str t pad_len s = some (t ++ fill) ∧
        fill.length = pad_len - t.length ∧
        ∀ i, i < fill.length → fill.get? i = s.get? (i % s.length)) ∧
    pad_left_str "12345".data 14 "qwerty".data =
      some "qwertyqwe12345".data := by
  constructor
  · intro t pad_len s h1 hs
    refine ⟨(List.range (pad_len - t.length)).map
        (fun i => s.getD (i % s.length) 'a'),
      pad_left_str_eq t pad_len s h1 hs,
      pad_right_str_eq t pad_len s h1 hs, by simp, ?_⟩
    intro i hi
    simp only [List.length_map, List.length_range] at hi
    have hlt : i % s.length < s.length := Nat.mod_lt _ (List.length_pos.mpr hs)
    rw [List.get?_map, List.get?_range hi, List.get?_eq_get hlt]
    simp [List.getD_eq_get?, List.getElem?_eq_getElem hlt]
  · decide

/-- Witness for C5's universal part at `T = "12"`, `pad_len = 5`,
`S = "ab"`. -/
theorem pad_str_fill_cycling_witness :
    ("12".data.length < 5 ∧ "ab".data ≠ []) ∧
    (∃ fill, pad_left_str "12".data 5 "ab".data = some (fill ++ "12".data) ∧
      pad_right_str "12".data 5 "ab".data = some ("12".data ++ fill) ∧
      fill.length = 5 - "12".data.length ∧
      ∀ i, i < fill.length →
        fill.get? i = "ab".data.get? (i % "ab".data.length)) :=
  ⟨⟨by decide, by decide⟩,
    pad_str_fill_cycling.1 "12".data 5 "ab".data (by decide) (by decide)⟩

/-- C3: `reverse` concatenates the extended grapheme clusters of the text
in reverse order: the clusters partition the input, each cluster survives
intact (as a contiguous block) in the output, and the output is the
reversed concatenation; in particular `reverse "汉字漢字" = "字漢字汉"`. -/
theorem reverse_grapheme_spec :
    (∀ t : List Char,
      reverse t = ((graphemes t).reverse).flatten ∧
      (graphemes t).flatten = t ∧
      ∀ g ∈ graphemes t, g <:+: reverse t) ∧
    reverse "汉字漢字".data = "字漢字汉".data := by
  refine ⟨fun t => ⟨rfl, flatten_graphemes t, fun g hg => ?_⟩, by decide⟩
  exact List.infix_of_mem_flatten (List.mem_reverse.mpr hg)

/-- C4 as stated is false: on a text that begins with a degenerate cluster
(a leading combining mark U+0301), the combining mark fuses with the
preceding base letter after one reversal, so the second reversal does not
restore the original. -/
theorem reverse_involution_cex :
    reverse (reverse ['́', 'a']) ≠ ['́', 'a'] := by decide

/-- C4 (amended): `reverse` is an involution on every text that does not
begin with a combining (`Extend`-class) scalar, so on every text whose
first cluster has a proper base; this covers all strings mixing scripts
and combining marks placed after their base. -/
theorem reverse_involution_of_head_not_extend (t : List Char)
    (h : (t.head?.all fun c => !isExtend c) = true) :
    reverse (reverse t) = t := by
  have hh : ∀ c, t.head? = some c → isExtend c = false := by
    intro c hc
    rw [hc] at h
    simpa using h
  have hcl : ∀ g ∈ graphemes t, isCluster g = true :=
    all_isCluster_graphemes t.length t le_rfl hh
  have h2 : ∀ g ∈ (graphemes t).reverse, isCluster g = true :=
    fun g hg => hcl g (List.mem_reverse.mp hg)
  show reverse (((graphemes t).reverse).flatten) = t
  unfold reverse
  rw [graphemes_flatten_clusters _ h2, List.reverse_reverse,
    flatten_graphemes]

/-- Witness for the amended C4 at `T = "ab्c"`. -/
theorem reverse_involution_witness :
    (("ab्c".data.head?.all fun c => !isExtend c) = true) ∧
    reverse (reverse "ab्c".data) = "ab्c".data :=
  ⟨by decide, reverse_involution_of_head_not_extend "ab्c".data (by decide)⟩

/-- C8: `swap_case` is the single left-to-right pass replacing each
lowercase scalar by its (possibly multi-scalar) uppercase mapping, each
uppercase scalar by its lowercase mapping, and copying caseless scalars;
the one-to-many mapping `ß → SS` is honoured, and digits, punctuation and
caseless scripts are fixed. -/
theorem swap_case_scalar_map_spec :
    (∀ t : List Char, swap_case t = (t.map swapScalar).flatten) ∧
    swap_case "straße".data = "STRASSE".data ∧
    swap_case "One Two Three".data = "oNE tWO tHREE".data ∧
    swap_case "123*?".data = "123*?".data ∧
    swap_case "משהו בעברית".data = "משהו בעברית".data :=
  ⟨swap_case_eq_flatten, by decide, by decide, by decide, by decide⟩

/-- C9 as stated is false: the Greek final sigma `ς` has simple
one-to-one case mappings (`ς` uppercases to the single scalar `Σ`, which
lowercases to the single scalar `σ`), yet
`swap_case (swap_case "ς") = "σ" ≠ "ς"`. -/
theorem swap_case_roundtrip_cex :
    ((charToUppercase 'ς').length = 1 ∧ (charToLowercase 'ς').length = 1) ∧
    swap_case (swap_case ['ς']) ≠ ['ς'] := by decide

/-- C9 (amended): `swap_case` is an involution on every text each of
whose scalars has a round-tripping simple case mapping: a lowercase scalar
maps to a single uppercase non-lowercase scalar that maps back to it, and
symmetrically for uppercase scalars. -/
theorem swap_case_roundtrip_of_simple (t : List Char)
    (h : ∀ c ∈ t, swapRoundTrips c = true) :
    swap_case (swap_case t) = t := by
  induction t with
  | nil => rfl
  | cons c rest ih =>
    have hc := h c (List.mem_cons_self c rest)
    have hrest := ih fun a ha => h a (List.mem_cons_of_mem c ha)
    have hcons : swap_case (c :: rest) = swapScalar c ++ swap_case rest := by
      rw [swap_case_eq_flatten, List.map_cons, List.flatten_cons,
        ← swap_case_eq_flatten]
    rw [hcons, swap_case_append, swap_case_swapScalar c hc, hrest]
    rfl

/-- Witness for the amended C9 at `T = "aB1 çΣ"`. -/
theorem swap_case_roundtrip_witness :
    (∀ c ∈ "aB1 çΣ".data, swapRoundTrips c = true) ∧
    swap_case (swap_case "aB1 çΣ".data) = "aB1 çΣ".data :=
  ⟨by decide, swap_case_roundtrip_of_simple "aB1 çΣ".data (by decide)⟩

end ExtString
